import Mathlib

/-!
Shallow embedding of parts of the `connectomes` Python package
(navis-org/connectomes) together with proofs about its behaviour.

Conventions used throughout:

* Python `str` is modelled as `List Char` where character-level operations
  matter (URL normalization in `chunkedgraph.py`), and as Lean `String`
  where strings are opaque keys (JSON object keys, dataframe column names).
* NumPy integer arrays are modelled as `List Int`; `(N, 3)` coordinate
  arrays as `List (Int × Int × Int)`.
* Calls into remote services (CloudVolume, CAVE, the CATMAID server) are
  modelled as function parameters (oracles), e.g. `get_roots : Int → Int`;
  the repository's own logic around those calls is translated directly.
* Python exceptions are modelled with `Option`/`Except`/explicit outcome
  types; where an exception can leave mutated state behind, the function
  returns the post-exception state alongside the outcome.
-/

universe u

namespace Connectomes

/-! ## utils/catmaid.py : WrappedCatmaidException and CatmaidClient -/

/-- JSON object body, as an association list from keys to (opaque) values.
The result of `response.json()` on a CATMAID error response is modelled by
this type. -/
abbrev JsonObj := List (String × String)

/-- Lookup `d[k]` in a JSON object: the first binding of `k`, if any.
`none` models a `KeyError`. -/
def jsonGet (body : JsonObj) (k : String) : Option String :=
  match body with
  | [] => none
  | kv :: rest => if kv.1 = k then some kv.2 else jsonGet rest k

/-- Model of a `requests.Response`: `isHttpError` is whether
`response.raise_for_status()` raises (status 4xx/5xx); `contentType` is
`response.headers.get("content-type")`; `body` is the parsed JSON body
`response.json()` (irrelevant when the response is not JSON). -/
structure Response where
  isHttpError : Bool
  contentType : Option String
  body : JsonObj
  deriving Repr, DecidableEq

/-- Outcome of `WrappedCatmaidException.raise_for_status(response)`:
return normally, raise a `WrappedCatmaidException` carrying the `error`,
`detail` and `type` fields, or re-raise the original `requests.HTTPError`. -/
inductive RaiseOutcome
  | ok : RaiseOutcome
  | wrapped (error detail ty : String) : RaiseOutcome
  | httpError : RaiseOutcome
  deriving Repr, DecidableEq

/-- Fallible part of `WrappedCatmaidException.__init__`: it reads
`error_data["error"]`, `error_data["detail"]` and `error_data["type"]`
(a missing key raises `KeyError`, modelled by `none`); the remaining
fields use `.get` and cannot raise. -/
def wrappedCatmaidInit (r : Response) : Option RaiseOutcome :=
  match jsonGet r.body ("error"), jsonGet r.body ("detail"), jsonGet r.body ("type") with
  | some e, some d, some t => some (.wrapped e d t)
  | _, _, _ => none

/-- Translation of `WrappedCatmaidException.raise_for_status`: if the
response is not an HTTP error, return; otherwise, if the content-type
header equals `application/json`, try to construct the wrapped exception
and raise it, falling back to the original `HTTPError` on `KeyError`;
for any other content type raise the original `HTTPError`. -/
def raise_for_status (r : Response) : RaiseOutcome :=
  if r.isHttpError then
    if r.contentType = some ("application/json") then
      match wrappedCatmaidInit r with
      | some w => w
      | none => .httpError
    else .httpError
  else .ok

/-- Consumption of the generator returned by `CatmaidClient.request_many`:
walk the futures in input order, raising at the first response whose
`raise_for_status` outcome is not `ok` and yielding responses before it. -/
def consumeResponses : List Response → List Response × Option RaiseOutcome
  | [] => ([], none)
  | r :: rs =>
    match raise_for_status r with
    | .ok =>
      let p := consumeResponses rs
      (r :: p.1, p.2)
    | o => ([], some o)

/-- Translation of `CatmaidClient.request_many`: the list comprehension
`futs` eagerly issues one request per `(url, data)` pair via
`request_fut` (modelled by the oracle `fetch`); the responses are then
consumed in input order. The first component of the result is the list of
yielded responses, the second the exception raised, if any. -/
def request_many (fetch : String × Option String → Response)
    (url_data : List (String × Option String)) : List Response × Option RaiseOutcome :=
  let futs := url_data.map fetch
  consumeResponses futs

/-! ## utils/misc.py : retry_on_fail -/

/-- Observable event of one run of the `retry_on_fail` wrapper: the
`(k+1)`-st invocation of `func`, or a `time.sleep(cooldown)`. -/
inductive RetryEvent
  | call (k : Nat)
  | sleep (cooldown : ℚ)
  deriving Repr, DecidableEq

/-- Whether a retry event is a call of the wrapped function. -/
def RetryEvent.isCall : RetryEvent → Bool
  | .call _ => true
  | .sleep _ => false

/-- Calls of the wrapped function recorded in a trace. -/
def callCount (tr : List RetryEvent) : Nat :=
  (tr.filter RetryEvent.isCall).length

/-- Translation of the `while True` loop in the wrapper returned by
`retry_on_fail`. The wrapped function is modelled as the oracle `f`
giving the outcome of its `(k+1)`-st call. `k` is the number of calls
already made (Python's `i - 1`); `r` is `n_retries - k`, so `r = 0`
exactly when a failure satisfies `i > n_retries` and re-raises.
A failure with `r > 0` falls through to `time.sleep(cooldown)` and loops;
a success breaks out of the loop at once. Returns the event trace and
the overall outcome. -/
def retryFrom (f : Nat → Except String α) (cooldown : ℚ) :
    Nat → Nat → List RetryEvent × Except String α
  | k, r =>
    match f k, r with
    | .ok a, _ => ([.call k], .ok a)
    | .error e, 0 => ([.call k], .error e)
    | .error _, r2 + 1 =>
      let p := retryFrom f cooldown (k + 1) r2
      (.call k :: .sleep cooldown :: p.1, p.2)

/-- Run of the wrapper returned by `retry_on_fail(func, cooldown, n_retries)`
(`utils/misc.py`): starts with zero calls made and `n_retries` retries
available. -/
def retry_on_fail (f : Nat → Except String α) (cooldown : ℚ) (n_retries : Nat) :
    List RetryEvent × Except String α :=
  retryFrom f cooldown 0 n_retries

/-- Number of failing calls made before the run starting at call `k` with
`r` retries left stops retrying (by success or by exhaustion). -/
def attemptsUsed (f : Nat → Except String α) : Nat → Nat → Nat
  | k, r =>
    match f k, r with
    | .ok _, _ => 0
    | .error _, 0 => 0
    | .error _, r2 + 1 => attemptsUsed f (k + 1) r2 + 1

/-- Expected trace of a run making calls `k, k+1, ..., k+m` with a sleep of
`c` seconds between consecutive calls and none after the last. -/
def retryTracePattern (c : ℚ) : Nat → Nat → List RetryEvent
  | k, 0 => [.call k]
  | k, m + 1 => .call k :: .sleep c :: retryTracePattern c (k + 1) m

/-! ## segmentation/chunkedgraph.py : ChunkedGraphDataSet -/

/-- NumPy masked assignment `base[mask] = vals`: positions where the mask
is true receive the successive values of `vals`; other positions keep the
base value. -/
def maskedPut : List Int → List Bool → List Int → List Int
  | [], _, _ => []
  | b :: bs, [], _ => b :: bs
  | b :: bs, false :: ms, vals => b :: maskedPut bs ms vals
  | _ :: bs, true :: ms, v :: vs => v :: maskedPut bs ms vs
  | b :: bs, true :: ms, [] => b :: maskedPut bs ms []

/-- Translation of `ChunkedGraphDataSet.supervoxels_to_roots` with
`use_cache=False`: `roots = np.zeros(x.shape)`, `not_zero = x != 0`,
`roots[not_zero] = vol.get_roots(x[not_zero])`. The backend call
`vol.get_roots` maps each queried supervoxel ID through the oracle
`get_roots`. -/
def supervoxels_to_roots (get_roots : Int → Int) (x : List Int) : List Int :=
  let roots := List.replicate x.length 0
  let not_zero := x.map (fun v => decide (v ≠ 0))
  let queried := x.filter (fun v => decide (v ≠ 0))
  maskedPut roots not_zero (queried.map get_roots)

/-- Model of an x/y/z location (or of a row of an `(N, 3)` array). -/
abbrev Loc := Int × Int × Int

/-- Row-wise maximum `arr.max(axis=1)` of an `(N, 3)` array, at one row. -/
def max3 (l : Loc) : Int := max l.1 (max l.2.1 l.2.2)

/-- Indices of the true entries of a boolean mask, counting from `k`. -/
def whereIdxFrom : List Bool → Nat → List Nat
  | [], _ => []
  | b :: bs, k => if b then k :: whereIdxFrom bs (k + 1) else whereIdxFrom bs (k + 1)

/-- NumPy `np.where(mask)[0]`: indices of the true entries of the mask. -/
def whereIdx (mask : List Bool) : List Nat := whereIdxFrom mask 0

/-- Mask of locations `snap_to_id` will try to fix:
`id_wrong = root_ids != id`, `not_zero = root_ids != 0`,
`to_fix = id_wrong` and, unless `snap_zero`, `to_fix = to_fix & not_zero`.
`seg` is the oracle for `locs_to_segments` (one root ID per location). -/
def to_fix_mask (seg : Loc → Int) (id : Int) (snap_zero : Bool) (locs : List Loc) : List Bool :=
  let root_ids := locs.map seg
  let id_wrong := root_ids.map (fun r => decide (r ≠ id))
  let not_zero := root_ids.map (fun r => decide (r ≠ 0))
  if snap_zero then id_wrong else List.zipWith and id_wrong not_zero

/-- Scatter step of `snap_to_id`: `not_snapped = new_locs.max(axis=1) == 0`,
`to_update = np.where(to_fix)[0][~not_snapped]`,
`locs[to_update, :] = new_locs[~not_snapped]`. Each fix `(i, v)` writes
`v` at index `i` unless the cutout found nothing (`max == 0`). -/
def applyFixes (locs : List Loc) (fixes : List (Nat × Loc)) : List Loc :=
  fixes.foldl (fun acc p => if max3 p.2 = 0 then acc else acc.set p.1 p.2) locs

/-- Translation of `ChunkedGraphDataSet.snap_to_id` with `coordinates="nm"`
(no unit rescaling): the input is copied (`np.array(locs, copy=True)`), the
to-fix mask computed from the segmentation oracle `seg`, `_process_cutout`
(oracle `cutout`, returning `[0, 0, 0]` when no voxel with the correct ID
is within the search radius) is applied to every to-fix location, and the
snapped locations are scattered back. -/
def snap_to_id (seg : Loc → Int) (cutout : Loc → Loc) (id : Int) (snap_zero : Bool)
    (locs : List Loc) : List Loc :=
  let to_fix := to_fix_mask seg id snap_zero locs
  let fix_idx := whereIdx to_fix
  let new_locs := fix_idx.map (fun i => cutout (locs.getD i ((0 : Int), (0 : Int), (0 : Int))))
  applyFixes locs (fix_idx.zip new_locs)

/-! ## utils/segmentation.py : PointLoader -/

/-- Componentwise Python floor division `a // b` on a coordinate triple. -/
def locFdiv (a b : Loc) : Loc := (Int.fdiv a.1 b.1, Int.fdiv a.2.1 b.2.1, Int.fdiv a.2.2 b.2.2)

/-- Componentwise product of two coordinate triples. -/
def locMul (a b : Loc) : Loc := (a.1 * b.1, a.2.1 * b.2.1, a.2.2 * b.2.2)

/-- Chunk key of a point in `PointLoader.add_points`:
`(point // resolution) // chunk_size * chunk_size`. -/
def chunkKey (res csz : Loc) (p : Loc) : Loc := locMul (locFdiv (locFdiv p res) csz) csz

/-- Lookup in the `points_dict` built by `PointLoader.load_all`. -/
def lookupLoc : List (Loc × Int) → Loc → Option Int
  | [], _ => none
  | kv :: rest, p => if kv.1 = p then some kv.2 else lookupLoc rest p

/-- Translation of `PointLoader.load_all` with `return_sorted=True`, for
points accumulated by `add_points` (field `self._points`, in insertion
order). `add_points` groups the points into `self._chunk_map`, a dict from
chunk key to the set of points in that chunk (sets dedup); `_load_points`
returns, per chunk, the chunk's points with the volume data at each point
(`vlookup` abstracts the cutout loading and indexing of `_load_chunk`);
`load_all` then builds `points_dict` from all per-chunk results and reads
it back in insertion order of `self._points`. A missing key would be a
`KeyError`, hence the `Option`. -/
def load_all_sorted (res csz : Loc) (vlookup : Loc → Int) (pts : List Loc) :
    List Loc × List (Option Int) :=
  let keys := (pts.map (chunkKey res csz)).dedup
  let results := keys.map (fun k =>
    let g := (pts.filter (fun p => decide (chunkKey res csz p = k))).dedup
    (g, g.map vlookup))
  let pairs := results.flatMap (fun r => r.1.zip r.2)
  (pts, pts.map (fun p => lookupLoc pairs p))

/-- Translation of `ChunkedGraphDataSet.locs_to_supervoxels`: the body runs
`loader = utils.PointLoader(self.cloudvolume)` followed by
`loader.add(locs)` — but `PointLoader` (utils/segmentation.py) defines no
method `add` (its queueing method is `add_points`), so every call raises
`AttributeError` before any point is queued or loaded. -/
def locs_to_supervoxels (locs : List Loc) : Except String (List Int) :=
  Except.error ("AttributeError: PointLoader object has no attribute add")

/-! ## l2/l2.py : L2Cache.get_graph -/

/-- Row-wise `np.sort(l2_eg, axis=1)` on one edge: order the two endpoints. -/
def sortRow (e : Int × Int) : Int × Int := if e.1 ≤ e.2 then e else (e.2, e.1)

/-- Lexicographic order on edge rows, as used by `np.unique(..., axis=0)`. -/
def lexLe (a b : Int × Int) : Bool := decide (a.1 < b.1 ∨ (a.1 = b.1 ∧ a.2 ≤ b.2))

/-- Insertion step of the row sort underlying `np.unique(..., axis=0)`. -/
def insertLex (e : Int × Int) : List (Int × Int) → List (Int × Int)
  | [] => [e]
  | x :: xs => if lexLe e x then e :: x :: xs else x :: insertLex e xs

/-- Sort of the edge rows underlying `np.unique(..., axis=0)`. -/
def sortLexRows : List (Int × Int) → List (Int × Int)
  | [] => []
  | x :: xs => insertLex x (sortLexRows xs)

/-- NumPy `np.unique(arr, axis=0)` on an edge list: sorted distinct rows. -/
def npUniqueRows (l : List (Int × Int)) : List (Int × Int) := (sortLexRows l).dedup

/-- Edge set built by `L2Cache.get_graph` from the backend edge list
`l2_eg = client.chunkedgraph.level2_chunk_graph(root_ids)`:
`np.unique(np.sort(l2_eg, axis=1), axis=0)`, the rows then handed to
`networkx.Graph.add_edges_from`. -/
def get_graph (l2_eg : List (Int × Int)) : List (Int × Int) :=
  npUniqueRows (l2_eg.map sortRow)

/-! ## utils/misc.py : chunk and DataFrameBuilder -/

/-- Translation of the generator `chunk(it, chunks)`: accumulate into
`out`, yield `out` whenever `len(out) >= chunks`, and yield the non-empty
remainder at the end. -/
def chunkGo {α : Type u} (chunks : Nat) (out : List α) : List α → List (List α)
  | [] => if out.isEmpty then [] else [out]
  | x :: xs =>
    if chunks ≤ (out ++ [x]).length then (out ++ [x]) :: chunkGo chunks [] xs
    else chunkGo chunks (out ++ [x]) xs

/-- The generator `chunk(it, chunks)` of `utils/misc.py`, fully consumed. -/
def chunk {α : Type u} (it : List α) (chunks : Nat) : List (List α) :=
  chunkGo chunks [] it

/-- Python exception outcomes of the `DataFrameBuilder` append methods. -/
inductive PyErr
  | valueError : PyErr
  | keyError (k : String) : PyErr
  deriving Repr, DecidableEq

/-- Model of `DataFrameBuilder` state: `self.columns` is a dict from column
name to list of values, in insertion order; values are modelled as `Int`. -/
structure DataFrameBuilder where
  columns : List (String × List Int)
  deriving Repr, DecidableEq

/-- Column names of a builder, in order. -/
def colNames (b : DataFrameBuilder) : List String := b.columns.map (fun c => c.1)

/-- Translation of `DataFrameBuilder.append_row`: raise `ValueError` if the
row length differs from the number of columns (before touching any state),
else append the i-th row item to the i-th column
(`zip(row, self.columns.values())`). -/
def append_row (b : DataFrameBuilder) (row : List Int) : DataFrameBuilder × Option PyErr :=
  if row.length ≠ b.columns.length then (b, some .valueError)
  else (⟨(b.columns.zip row).map (fun p => (p.1.1, p.1.2 ++ [p.2]))⟩, none)

/-- One step `self.columns[k].append(v)` of `append_dict`: append `v` to
the column named `k`, or `none` for the `KeyError` when no column is
named `k`. -/
def colAppend : List (String × List Int) → String → Int → Option (List (String × List Int))
  | [], _, _ => none
  | c :: rest, k, v =>
    if c.1 = k then some ((c.1, c.2 ++ [v]) :: rest)
    else (colAppend rest k v).map (fun r => c :: r)

/-- The `for k, v in row.items()` loop of `append_dict`: appends item by
item; a `KeyError` aborts the loop, keeping the appends already made. -/
def append_dict_go : List (String × List Int) → List (String × Int) →
    List (String × List Int) × Option PyErr
  | cols, [] => (cols, none)
  | cols, kv :: items =>
    match colAppend cols kv.1 kv.2 with
    | none => (cols, some (.keyError kv.1))
    | some cols2 => append_dict_go cols2 items

/-- Translation of `DataFrameBuilder.append_dict`: raise `ValueError` if
the dict size differs from the number of columns, else run the append
loop. The returned builder is the post-call state, also when an exception
is raised. -/
def append_dict (b : DataFrameBuilder) (row : List (String × Int)) :
    DataFrameBuilder × Option PyErr :=
  if row.length ≠ b.columns.length then (b, some .valueError)
  else
    let p := append_dict_go b.columns row
    (⟨p.1⟩, p.2)

/-- Values a run of the `append_dict` loop appends to the column named
`name`: the values of the row items whose key is `name`, in order. -/
def appendedVals (name : String) (items : List (String × Int)) : List Int :=
  (items.filter (fun kv => decide (kv.1 = name))).map (fun kv => kv.2)

/-! ## segmentation/chunkedgraph.py : URL normalization in `__init__` -/

/-- Characters of the scheme `graphene://` (length 11), stripped by
`ChunkedGraphDataSet.__init__` via `url[11:]`. -/
def grapheneScheme : List Char :=
  ['g', 'r', 'a', 'p', 'h', 'e', 'n', 'e', ':', '/', '/']

/-- Translation of the loop `while url.endswith("/"): url = url[:-1]`. -/
def stripTrailSlashes (url : List Char) : List Char :=
  if h : url.getLast? = some '/' then stripTrailSlashes url.dropLast else url
termination_by url.length
decreasing_by
  have hne : url ≠ [] := by
    intro he
    rw [he] at h
    simp [List.getLast?] at h
  simpa [List.length_dropLast] using Nat.sub_lt (List.length_pos.mpr hne) Nat.one_pos

/-- URL normalization of `ChunkedGraphDataSet.__init__`: strip one leading
`graphene://` scheme if present (`url[11:]`), then all trailing slashes;
the result is stored as `self.url`. -/
def init_url (url : List Char) : List Char :=
  stripTrailSlashes (if grapheneScheme.isPrefixOf url then url.drop 11 else url)

/-- Address reconstructed by the `cloudvolume` property:
`CloudVolume("graphene://" + self.url)`. -/
def cloudvolume_path (stored : List Char) : List Char := grapheneScheme ++ stored

/-! ## Lemmas and claim theorems -/

theorem consumeResponses_all_ok (rs : List Response)
    (h : ∀ r ∈ rs, raise_for_status r = RaiseOutcome.ok) :
    consumeResponses rs = (rs, none) := by
  induction rs with
  | nil => rfl
  | cons r rest ih =>
    have hr : raise_for_status r = RaiseOutcome.ok := h r (List.mem_cons_self r rest)
    have hrest := ih (fun x hx => h x (List.mem_cons_of_mem r hx))
    simp [consumeResponses, hr, hrest]

theorem consumeResponses_first_bad (rs : List Response) (k : Nat) (hk : k < rs.length)
    (hpre : ∀ j, j < k → raise_for_status (rs.getD j ⟨false, none, []⟩) = RaiseOutcome.ok)
    (hbad : raise_for_status (rs.getD k ⟨false, none, []⟩) ≠ RaiseOutcome.ok) :
    consumeResponses rs = (rs.take k, some (raise_for_status (rs.getD k ⟨false, none, []⟩))) := by
  induction rs generalizing k with
  | nil => simp at hk
  | cons r rest ih =>
    cases k with
    | zero =>
      simp only [List.getD, List.getElem?_cons_zero, Option.getD_some] at hbad ⊢
      unfold consumeResponses
      rcases ho : raise_for_status r with _ | ⟨e, d, t⟩ | _
      · exact absurd ho hbad
      · simp [ho]
      · simp [ho]
    | succ k2 =>
      have hr : raise_for_status r = RaiseOutcome.ok := by
        have := hpre 0 (Nat.succ_pos k2)
        simpa using this
      have hk2 : k2 < rest.length := Nat.lt_of_succ_lt_succ hk
      have hpre2 : ∀ j, j < k2 → raise_for_status (rest.getD j ⟨false, none, []⟩) = RaiseOutcome.ok := by
        intro j hj
        have := hpre (j + 1) (Nat.succ_lt_succ hj)
        simpa using this
      have hbad2 : raise_for_status (rest.getD k2 ⟨false, none, []⟩) ≠ RaiseOutcome.ok := by
        simpa using hbad
      have := ih k2 hk2 hpre2 hbad2
      simp [consumeResponses, hr, this]

/-- C1: raise_for_status returns normally exactly when the response is not
an HTTP error; on an error response it raises the wrapped CATMAID
exception with fields `e`, `d`, `t` exactly when the content-type header
equals application/json and the JSON body binds "error", "detail" and
"type" to them; in every other error case (other content type, or one of
the three keys missing) it re-raises the original requests.HTTPError. -/
theorem C1_raise_for_status (r : Response) :
    (raise_for_status r = RaiseOutcome.ok ↔ r.isHttpError = false)
  ∧ (∀ e d t, raise_for_status r = RaiseOutcome.wrapped e d t ↔
      (r.isHttpError = true ∧ r.contentType = some ("application/json") ∧
       jsonGet r.body ("error") = some e ∧ jsonGet r.body ("detail") = some d ∧
       jsonGet r.body ("type") = some t))
  ∧ (raise_for_status r = RaiseOutcome.httpError ↔
      (r.isHttpError = true ∧
       (r.contentType ≠ some ("application/json") ∨ jsonGet r.body ("error") = none ∨
        jsonGet r.body ("detail") = none ∨ jsonGet r.body ("type") = none))) := by
  cases hI : r.isHttpError with
  | false => simp [raise_for_status, hI]
  | true =>
    by_cases hct : r.contentType = some ("application/json")
    · rcases he : jsonGet r.body ("error") with _ | e
      · simp [raise_for_status, wrappedCatmaidInit, hI, hct, he]
      · rcases hd : jsonGet r.body ("detail") with _ | d
        · simp [raise_for_status, wrappedCatmaidInit, hI, hct, he, hd]
        · rcases ht : jsonGet r.body ("type") with _ | t
          · simp [raise_for_status, wrappedCatmaidInit, hI, hct, he, hd, ht]
          · simp only [raise_for_status, wrappedCatmaidInit, hI, hct, he, hd, ht, if_true]
            refine ⟨by simp, fun e2 d2 t2 => ?_, by simp⟩
            constructor
            · intro hw
              cases hw
              simp [hct, he, hd, ht]
            · rintro ⟨-, -, he2, hd2, ht2⟩
              obtain rfl : e = e2 := Option.some_injective _ he2
              obtain rfl : d = d2 := Option.some_injective _ hd2
              obtain rfl : t = t2 := Option.some_injective _ ht2
              rfl
    · simp [raise_for_status, hI, hct]

/-- C6: request_many issues one request per (url, data) pair; consuming
the generator yields all responses in input order when none is an HTTP
error, and when the first bad response (in input order) sits at index k it
yields exactly the first k responses and then raises that response's
raise_for_status outcome. -/
theorem C6_request_many (fetch : String × Option String → Response)
    (url_data : List (String × Option String)) :
    (url_data.map fetch).length = url_data.length
  ∧ ((∀ r ∈ url_data.map fetch, raise_for_status r = RaiseOutcome.ok) →
      request_many fetch url_data = (url_data.map fetch, none))
  ∧ (∀ k, k < url_data.length →
      (∀ j, j < k → raise_for_status ((url_data.map fetch).getD j ⟨false, none, []⟩) =
        RaiseOutcome.ok) →
      raise_for_status ((url_data.map fetch).getD k ⟨false, none, []⟩) ≠ RaiseOutcome.ok →
      request_many fetch url_data =
        ((url_data.map fetch).take k,
         some (raise_for_status ((url_data.map fetch).getD k ⟨false, none, []⟩)))) := by
  refine ⟨List.length_map url_data fetch, ?_, ?_⟩
  · intro h
    exact consumeResponses_all_ok (url_data.map fetch) h
  · intro k hk hpre hbad
    have hk2 : k < (url_data.map fetch).length := by
      rw [List.length_map]
      exact hk
    exact consumeResponses_first_bad (url_data.map fetch) k hk2 hpre hbad

/-- Witness for C6 at a concrete input: two pairs, the second response an
HTTP error with a JSON body missing the keys, so the generator yields the
first response and then raises the original HTTPError. -/
theorem C6_request_many_witness :
    request_many
      (fun p => if p.1 = ("a") then ⟨false, none, []⟩ else ⟨true, none, []⟩)
      [("a", none), ("b", none)] =
      ([⟨false, none, []⟩], some RaiseOutcome.httpError) := by
  have h := (C6_request_many
    (fun p => if p.1 = ("a") then ⟨false, none, []⟩ else ⟨true, none, []⟩)
    [("a", none), ("b", none)]).2.2 1 (by decide)
    (by intro j hj; interval_cases j <;> decide) (by decide)
  simpa using h

theorem chunkGo_join {α : Type u} (c : Nat) (hc : 1 ≤ c) :
    ∀ (it out : List α), out.length < c → (chunkGo c out it).join = out ++ it := by
  intro it
  induction it with
  | nil =>
    intro out hlt
    cases out with
    | nil => rfl
    | cons y ys => simp [chunkGo]
  | cons x xs ih =>
    intro out hlt
    by_cases hy : c ≤ out.length + 1
    · have h0 : ([] : List α).length < c := by simpa using hc
      simp [chunkGo, hy, ih [] h0]
    · have hy2 : (out ++ [x]).length < c := by
        simp only [List.length_append, List.length_singleton]
        omega
      simp [chunkGo, hy, ih (out ++ [x]) hy2]

theorem chunkGo_mem {α : Type u} (c : Nat) (hc : 1 ≤ c) :
    ∀ (it out : List α), out.length < c →
      ∀ l ∈ chunkGo c out it, 1 ≤ l.length ∧ l.length ≤ c := by
  intro it
  induction it with
  | nil =>
    intro out hlt l hl
    cases out with
    | nil => simp [chunkGo] at hl
    | cons y ys =>
      simp [chunkGo] at hl
      subst hl
      exact ⟨by simp, Nat.le_of_lt hlt⟩
  | cons x xs ih =>
    intro out hlt l hl
    by_cases hy : c ≤ out.length + 1
    · simp only [chunkGo, List.length_append, List.length_singleton, hy, if_true,
        List.mem_cons] at hl
      rcases hl with rfl | hl
      · exact ⟨by simp, by simp; omega⟩
      · have h0 : ([] : List α).length < c := by simpa using hc
        exact ih [] h0 l hl
    · have hy2 : (out ++ [x]).length < c := by
        simp only [List.length_append, List.length_singleton]
        omega
      simp only [chunkGo, List.length_append, List.length_singleton, hy, if_false] at hl
      exact ih (out ++ [x]) hy2 l hl

theorem chunkGo_body_len {α : Type u} (c : Nat) (hc : 1 ≤ c) :
    ∀ (it out : List α), out.length < c → ∀ i, i + 1 < (chunkGo c out it).length →
      ((chunkGo c out it).getD i []).length = c := by
  intro it
  induction it with
  | nil =>
    intro out hlt i hi
    cases out with
    | nil => simp [chunkGo] at hi
    | cons y ys => simp [chunkGo] at hi
  | cons x xs ih =>
    intro out hlt i hi
    by_cases hy : c ≤ out.length + 1
    · cases i with
      | zero =>
        have hlen : (out ++ [x]).length = c := by
          simp only [List.length_append, List.length_singleton]
          omega
        simp [chunkGo, hy, hlen]
      | succ i2 =>
        have h0 : ([] : List α).length < c := by simpa using hc
        have hi2 : i2 + 1 < (chunkGo c [] xs).length := by
          simp [chunkGo, hy] at hi
          omega
        have := ih [] h0 i2 hi2
        simpa [chunkGo, hy] using this
    · have hy2 : (out ++ [x]).length < c := by
        simp only [List.length_append, List.length_singleton]
        omega
      have hi2 : i + 1 < (chunkGo c (out ++ [x]) xs).length := by
        simpa [chunkGo, hy] using hi
      have := ih (out ++ [x]) hy2 i hi2
      simpa [chunkGo, hy] using this

/-- C8: for chunks >= 1 the lists yielded by chunk(it, chunks) concatenate
to the input in order; every yielded list is non-empty and has at most
chunks elements (so the last has between 1 and chunks), and every yielded
list other than the last has exactly chunks elements. -/
theorem C8_chunk {α : Type u} (it : List α) (c : Nat) (hc : 1 ≤ c) :
    (chunk it c).join = it
  ∧ (∀ l ∈ chunk it c, 1 ≤ l.length ∧ l.length ≤ c)
  ∧ (∀ i, i + 1 < (chunk it c).length → ((chunk it c).getD i []).length = c) := by
  have h0 : ([] : List α).length < c := by simpa using hc
  refine ⟨?_, ?_, ?_⟩
  · simpa using chunkGo_join c hc it [] h0
  · exact chunkGo_mem c hc it [] h0
  · exact chunkGo_body_len c hc it [] h0

/-- Witness for C8 at a concrete input: chunking five elements by two
restores the input on concatenation. -/
theorem C8_chunk_witness : (chunk [(1 : Nat), 2, 3, 4, 5] 2).join = [1, 2, 3, 4, 5] :=
  (C8_chunk [(1 : Nat), 2, 3, 4, 5] 2 (by decide)).1

theorem stripTrailSlashes_getLast (url : List Char) :
    (stripTrailSlashes url).getLast? ≠ some '/' := by
  generalize hn : url.length = n
  induction n using Nat.strong_induction_on generalizing url with
  | _ n ih =>
    rw [stripTrailSlashes]
    split
    · rename_i h
      have hne : url ≠ [] := by
        intro he
        rw [he] at h
        simp [List.getLast?] at h
      refine ih url.dropLast.length ?_ url.dropLast rfl
      rw [← hn, List.length_dropLast]
      exact Nat.sub_lt (List.length_pos.mpr hne) Nat.one_pos
    · rename_i h
      exact h

/-- C10: the URL stored by ChunkedGraphDataSet.__init__ never ends with a
slash; a single leading graphene:// scheme, when present, is removed
exactly once (by url[11:]) before trailing slashes are stripped; without
the scheme only trailing slashes are stripped; and the cloudvolume
property reconstructs the address as graphene:// plus the stored URL. -/
theorem C10_init_url (url rest : List Char) :
    (init_url url).getLast? ≠ some '/'
  ∧ (url = grapheneScheme ++ rest → init_url url = stripTrailSlashes rest)
  ∧ ((∀ r : List Char, url ≠ grapheneScheme ++ r) → init_url url = stripTrailSlashes url)
  ∧ cloudvolume_path (init_url url) = grapheneScheme ++ init_url url := by
  refine ⟨stripTrailSlashes_getLast _, ?_, ?_, rfl⟩
  · intro h
    subst h
    have hp : grapheneScheme.isPrefixOf (grapheneScheme ++ rest) = true := by
      rw [List.isPrefixOf_iff_prefix]
      exact List.prefix_append grapheneScheme rest
    have hlen : grapheneScheme.length = 11 := rfl
    unfold init_url
    rw [hp, if_pos rfl, ← hlen, List.drop_left]
  · intro h
    have hp : grapheneScheme.isPrefixOf url = false := by
      rcases hb : grapheneScheme.isPrefixOf url with _ | _
      · rfl
      · rw [List.isPrefixOf_iff_prefix] at hb
        rcases hb with ⟨t, ht⟩
        exact absurd ht.symm (h t)
    unfold init_url
    rw [hp]
    simp

/-- Witness for C10 at concrete URLs: one with the graphene:// scheme and
a trailing slash, one without the scheme. -/
theorem C10_init_url_witness :
    init_url (grapheneScheme ++ ['a', '/']) = stripTrailSlashes ['a', '/']
  ∧ init_url ['a', '/'] = stripTrailSlashes ['a', '/'] := by
  constructor
  · exact (C10_init_url (grapheneScheme ++ ['a', '/']) ['a', '/']).2.1 rfl
  · refine (C10_init_url ['a', '/'] []).2.2.1 ?_
    intro r hr
    have hlen := congrArg List.length hr
    simp [grapheneScheme] at hlen

theorem retryTracePattern_callCount (c : ℚ) :
    ∀ m k, callCount (retryTracePattern c k m) = m + 1 := by
  intro m
  induction m with
  | zero => intro k; rfl
  | succ m2 ih =>
    intro k
    simp only [retryTracePattern, callCount, List.filter, RetryEvent.isCall] at ih ⊢
    rw [List.length_cons]
    rw [ih (k + 1)]

theorem attemptsUsed_le {α : Type u} (f : Nat → Except String α) :
    ∀ r k, attemptsUsed f k r ≤ r := by
  intro r
  induction r with
  | zero =>
    intro k
    rcases hf : f k with e | a <;> simp [attemptsUsed, hf]
  | succ r2 ih =>
    intro k
    rcases hf : f k with e | a
    · have hu : attemptsUsed f k (r2 + 1) = attemptsUsed f (k + 1) r2 + 1 := by
        simp [attemptsUsed, hf]
      rw [hu]
      exact Nat.succ_le_succ (ih (k + 1))
    · simp [attemptsUsed, hf]

theorem attemptsUsed_errors {α : Type u} (f : Nat → Except String α) :
    ∀ r k j, j < attemptsUsed f k r → ∃ e, f (k + j) = Except.error e := by
  intro r
  induction r with
  | zero =>
    intro k j hj
    rcases hf : f k with e | a <;> simp [attemptsUsed, hf] at hj
  | succ r2 ih =>
    intro k j hj
    rcases hf : f k with e | a
    · cases j with
      | zero => exact ⟨e, by simpa using hf⟩
      | succ j2 =>
        have hu : attemptsUsed f k (r2 + 1) = attemptsUsed f (k + 1) r2 + 1 := by
          simp [attemptsUsed, hf]
        rw [hu] at hj
        rcases ih (k + 1) j2 (Nat.lt_of_succ_lt_succ hj) with ⟨e2, he2⟩
        exact ⟨e2, by rw [show k + (j2 + 1) = k + 1 + j2 by omega]; exact he2⟩
    · simp [attemptsUsed, hf] at hj

theorem attemptsUsed_last {α : Type u} (f : Nat → Except String α) :
    ∀ r k, (∃ a, f (k + attemptsUsed f k r) = Except.ok a) ∨ attemptsUsed f k r = r := by
  intro r
  induction r with
  | zero =>
    intro k
    exact Or.inr (by rcases hf : f k with e | a <;> simp [attemptsUsed, hf])
  | succ r2 ih =>
    intro k
    rcases hf : f k with e | a
    · have hu : attemptsUsed f k (r2 + 1) = attemptsUsed f (k + 1) r2 + 1 := by
        simp [attemptsUsed, hf]
      rw [hu]
      rcases ih (k + 1) with ⟨a, ha⟩ | heq
      · exact Or.inl ⟨a, by rw [show k + (attemptsUsed f (k + 1) r2 + 1) =
          k + 1 + attemptsUsed f (k + 1) r2 by omega]; exact ha⟩
      · exact Or.inr (by rw [heq])
    · exact Or.inl ⟨a, by simp [attemptsUsed, hf]⟩

theorem retryFrom_eq {α : Type u} (f : Nat → Except String α) (c : ℚ) :
    ∀ r k, retryFrom f c k r =
      (retryTracePattern c k (attemptsUsed f k r), f (k + attemptsUsed f k r)) := by
  intro r
  induction r with
  | zero =>
    intro k
    rcases hf : f k with e | a <;>
      simp [retryFrom, attemptsUsed, retryTracePattern, hf]
  | succ r2 ih =>
    intro k
    rcases hf : f k with e | a
    · have hu : attemptsUsed f k (r2 + 1) = attemptsUsed f (k + 1) r2 + 1 := by
        simp [attemptsUsed, hf]
      have hr : retryFrom f c k (r2 + 1) =
          (RetryEvent.call k :: RetryEvent.sleep c :: (retryFrom f c (k + 1) r2).1,
           (retryFrom f c (k + 1) r2).2) := by
        simp [retryFrom, hf]
      rw [hr, hu, ih (k + 1), retryTracePattern]
      rw [show k + (attemptsUsed f (k + 1) r2 + 1) = k + 1 + attemptsUsed f (k + 1) r2 by omega]
    · simp [retryFrom, attemptsUsed, retryTracePattern, hf]

/-- C2: the wrapper built by retry_on_fail makes at most n_retries + 1
calls; it returns the result of the first non-failing call; if all
n_retries + 1 calls fail it re-raises the outcome of the last call; and
its event trace is exactly calls 0..m separated by single sleeps of
`cooldown` seconds, with no sleep after the final (successful or failing)
call. -/
theorem C2_retry_on_fail {α : Type u} (f : Nat → Except String α) (cooldown : ℚ)
    (n_retries : Nat) :
    callCount (retry_on_fail f cooldown n_retries).1 ≤ n_retries + 1
  ∧ (∀ m, m ≤ n_retries → (∀ j, j < m → ∃ e, f j = Except.error e) →
      (∃ a, f m = Except.ok a) → (retry_on_fail f cooldown n_retries).2 = f m)
  ∧ ((∀ j, j ≤ n_retries → ∃ e, f j = Except.error e) →
      (retry_on_fail f cooldown n_retries).2 = f n_retries)
  ∧ (∃ m, m ≤ n_retries ∧
      (retry_on_fail f cooldown n_retries).1 = retryTracePattern cooldown 0 m ∧
      callCount (retry_on_fail f cooldown n_retries).1 = m + 1) := by
  have heq := retryFrom_eq f cooldown n_retries 0
  have hle : attemptsUsed f 0 n_retries ≤ n_retries := attemptsUsed_le f n_retries 0
  have herr : ∀ j, j < attemptsUsed f 0 n_retries → ∃ e, f j = Except.error e := by
    intro j hj
    simpa using attemptsUsed_errors f n_retries 0 j hj
  have hlast := attemptsUsed_last f n_retries 0
  unfold retry_on_fail
  rw [heq]
  refine ⟨?_, ?_, ?_, ?_⟩
  · rw [retryTracePattern_callCount]
    omega
  · intro m hm hbefore hok
    rcases hok with ⟨a, ha⟩
    have hmeq : m = attemptsUsed f 0 n_retries := by
      rcases Nat.lt_trichotomy m (attemptsUsed f 0 n_retries) with hlt | heq2 | hgt
      · rcases herr m hlt with ⟨e, he⟩
        rw [ha] at he
        cases he
      · exact heq2
      · rcases hlast with ⟨a2, ha2⟩ | hn
        · rcases hbefore _ (by simpa using hgt) with ⟨e, he⟩
          rw [show (0 : Nat) + attemptsUsed f 0 n_retries = attemptsUsed f 0 n_retries
            from Nat.zero_add _] at ha2
          rw [ha2] at he
          cases he
        · omega
    rw [hmeq]
    simp
  · intro hall
    rcases hlast with ⟨a2, ha2⟩ | hn
    · rcases hall (attemptsUsed f 0 n_retries) hle with ⟨e, he⟩
      rw [Nat.zero_add] at ha2
      rw [ha2] at he
      cases he
    · rw [hn]
      simp
  · exact ⟨attemptsUsed f 0 n_retries, hle, rfl, by rw [retryTracePattern_callCount]⟩

/-- Witness for C2 at concrete inputs: a function failing once then
succeeding returns the first success; a function that always fails makes
the wrapper re-raise the last failure. -/
theorem C2_retry_on_fail_witness :
    (retry_on_fail (fun k => if k = 1 then Except.ok (42 : Nat) else Except.error ("boom"))
      1 3).2 = Except.ok 42
  ∧ (retry_on_fail (fun _ : Nat => (Except.error ("x") : Except String Nat)) 1 2).2 =
      Except.error ("x") := by
  constructor
  · have h := (C2_retry_on_fail
      (fun k => if k = 1 then Except.ok (42 : Nat) else Except.error ("boom")) 1 3).2.1 1
      (by decide)
      (by
        intro j hj
        interval_cases j
        exact ⟨"boom", rfl⟩)
      ⟨42, rfl⟩
    simpa using h
  · exact (C2_retry_on_fail (fun _ : Nat => (Except.error ("x") : Except String Nat)) 1 2).2.2.1
      (fun j _ => ⟨"x", rfl⟩)

theorem supervoxels_map (g : Int → Int) :
    ∀ x : List Int,
      maskedPut (List.replicate x.length 0) (x.map (fun v => decide (v ≠ 0)))
        ((x.filter (fun v => decide (v ≠ 0))).map g) =
      x.map (fun v => if v = 0 then 0 else g v) := by
  intro x
  induction x with
  | nil => rfl
  | cons v xs ih =>
    by_cases hv : v = 0
    · subst hv
      simpa [List.replicate_succ, maskedPut] using ih
    · simpa [List.replicate_succ, maskedPut, hv] using ih

/-- C3: supervoxels_to_roots with use_cache=False returns one root per
input entry (same shape), keeps root 0 wherever the input supervoxel is 0,
maps every non-zero supervoxel through the backend get_roots, and the
list of IDs sent to get_roots (x[x != 0]) never contains 0. -/
theorem C3_supervoxels_to_roots (g : Int → Int) (x : List Int) :
    (supervoxels_to_roots g x).length = x.length
  ∧ (∀ i : Nat, x[i]? = some 0 → (supervoxels_to_roots g x)[i]? = some 0)
  ∧ (∀ (i : Nat) (v : Int), x[i]? = some v → v ≠ 0 →
      (supervoxels_to_roots g x)[i]? = some (g v))
  ∧ (0 : Int) ∉ x.filter (fun v => decide (v ≠ 0)) := by
  have hmap : supervoxels_to_roots g x = x.map (fun v => if v = 0 then 0 else g v) := by
    unfold supervoxels_to_roots
    exact supervoxels_map g x
  refine ⟨by rw [hmap]; simp, ?_, ?_, by simp⟩
  · intro i h0
    rw [hmap, List.getElem?_map, h0]
    rfl
  · intro i v hv hne
    rw [hmap, List.getElem?_map, hv]
    simp [hne]

/-- Witness for C3 at a concrete input: supervoxel 0 maps to root 0
without a backend call, supervoxel 5 goes through get_roots. -/
theorem C3_supervoxels_to_roots_witness :
    (supervoxels_to_roots (fun v => v + 100) [0, 5])[0]? = some 0
  ∧ (supervoxels_to_roots (fun v => v + 100) [0, 5])[1]? = some 105 := by
  constructor
  · exact (C3_supervoxels_to_roots (fun v => v + 100) [0, 5]).2.1 0 rfl
  · have h := (C3_supervoxels_to_roots (fun v => v + 100) [0, 5]).2.2.1 1 5 rfl (by decide)
    simpa using h

theorem mem_insertLex (e x : Int × Int) :
    ∀ l : List (Int × Int), x ∈ insertLex e l ↔ x = e ∨ x ∈ l := by
  intro l
  induction l with
  | nil => simp [insertLex]
  | cons y ys ih =>
    by_cases h : lexLe e y
    · simp [insertLex, h]
    · have hstep : insertLex e (y :: ys) = y :: insertLex e ys := by
        simp [insertLex, h]
      rw [hstep]
      simp only [List.mem_cons, ih]
      tauto

theorem mem_sortLexRows (x : Int × Int) :
    ∀ l : List (Int × Int), x ∈ sortLexRows l ↔ x ∈ l := by
  intro l
  induction l with
  | nil => simp [sortLexRows]
  | cons y ys ih => simp [sortLexRows, mem_insertLex, ih]

theorem sortRow_le (e : Int × Int) : (sortRow e).1 ≤ (sortRow e).2 := by
  by_cases h : e.1 ≤ e.2
  · simpa [sortRow, h] using h
  · simp only [sortRow, h, if_false]
    omega

/-- C7: the edge rows L2Cache.get_graph hands to networkx contain no
duplicates, each endpoint-sorted input edge appears, every output row
comes from an input edge, every output row is endpoint-sorted, and a pair
present in both orientations can only be a self-loop — so each unordered
L2-chunk pair yields at most one edge. -/
theorem C7_get_graph (edges : List (Int × Int)) :
    (get_graph edges).Nodup
  ∧ (∀ e ∈ edges, sortRow e ∈ get_graph edges)
  ∧ (∀ e ∈ get_graph edges, ∃ e0 ∈ edges, sortRow e0 = e)
  ∧ (∀ e ∈ get_graph edges, e.1 ≤ e.2)
  ∧ (∀ a b : Int, (a, b) ∈ get_graph edges → (b, a) ∈ get_graph edges → a = b) := by
  have hmem : ∀ y, y ∈ get_graph edges ↔ y ∈ edges.map sortRow := by
    intro y
    unfold get_graph npUniqueRows
    rw [List.mem_dedup, mem_sortLexRows]
  have hsorted : ∀ e ∈ get_graph edges, e.1 ≤ e.2 := by
    intro e he
    rcases List.mem_map.mp ((hmem e).mp he) with ⟨e0, _, hs⟩
    rw [← hs]
    exact sortRow_le e0
  refine ⟨List.nodup_dedup _, ?_, ?_, hsorted, ?_⟩
  · intro e he
    rw [hmem]
    exact List.mem_map_of_mem sortRow he
  · intro e he
    rcases List.mem_map.mp ((hmem e).mp he) with ⟨e0, h0, hs⟩
    exact ⟨e0, h0, hs⟩
  · intro a b hab hba
    have h1 := hsorted (a, b) hab
    have h2 := hsorted (b, a) hba
    simp only at h1 h2
    omega

/-- Witness for C7 at a concrete input: the backend edge list contains the
pair 2-1 (and 1-2); the graph keeps the single sorted row (1, 2). -/
theorem C7_get_graph_witness :
    ((1 : Int), (2 : Int)) ∈ get_graph [((2 : Int), (1 : Int)), (1, 2)] := by
  have h := (C7_get_graph [((2 : Int), (1 : Int)), (1, 2)]).2.1 (2, 1) (by decide)
  simpa [sortRow] using h

theorem colAppend_none (k : String) (v : Int) :
    ∀ cols : List (String × List Int), k ∉ cols.map Prod.fst → colAppend cols k v = none := by
  intro cols
  induction cols with
  | nil => intro _; rfl
  | cons c cs ih =>
    intro hk
    have hne : c.1 ≠ k := by
      intro he
      exact hk (by rw [← he]; exact List.mem_map_of_mem Prod.fst (List.mem_cons_self c cs))
    have hcs : k ∉ cs.map Prod.fst := fun hm => hk (List.mem_cons_of_mem _ hm)
    simp [colAppend, hne, ih hcs]

theorem colAppend_names (k : String) (v : Int) :
    ∀ cols : List (String × List Int), k ∈ cols.map Prod.fst →
      ∃ cols2, colAppend cols k v = some cols2 ∧ cols2.map Prod.fst = cols.map Prod.fst := by
  intro cols
  induction cols with
  | nil => intro hk; simp at hk
  | cons c cs ih =>
    intro hk
    by_cases hc : c.1 = k
    · exact ⟨(c.1, c.2 ++ [v]) :: cs, by simp [colAppend, hc], by simp⟩
    · have hcs : k ∈ cs.map Prod.fst := by
        rcases List.mem_cons.mp hk with h | h
        · exact absurd h.symm hc
        · exact h
      rcases ih hcs with ⟨cs2, h1, h2⟩
      exact ⟨c :: cs2, by simp [colAppend, hc, h1], by simp [h2]⟩

theorem colAppend_pos (k : String) (v : Int) :
    ∀ cols : List (String × List Int), (cols.map Prod.fst).Nodup → k ∈ cols.map Prod.fst →
      ∃ cols2, colAppend cols k v = some cols2 ∧
        cols2.map Prod.fst = cols.map Prod.fst ∧
        ∀ (i : Nat) (name : String) (vs : List Int), cols[i]? = some (name, vs) →
          cols2[i]? = some (name, vs ++ (if name = k then [v] else [])) := by
  intro cols
  induction cols with
  | nil => intro _ hk; simp at hk
  | cons c cs ih =>
    intro hnd hk
    have hnd2 : (cs.map Prod.fst).Nodup := (List.nodup_cons.mp (by simpa using hnd)).2
    by_cases hc : c.1 = k
    · refine ⟨(c.1, c.2 ++ [v]) :: cs, by simp [colAppend, hc], by simp, ?_⟩
      intro i name vs hi
      cases i with
      | zero =>
        simp only [List.getElem?_cons_zero, Option.some_inj] at hi
        subst hi
        have hnk : name = k := by simpa using hc
        simp [hnk]
      | succ j =>
        simp only [List.getElem?_cons_succ] at hi ⊢
        have hmem : name ∈ cs.map Prod.fst := by
          have := List.getElem?_mem hi
          exact List.mem_map_of_mem Prod.fst this
        have hkc : c.1 ∉ cs.map Prod.fst := (List.nodup_cons.mp (by simpa using hnd)).1
        have hne : name ≠ k := by
          intro he
          rw [he, ← hc] at hmem
          exact hkc hmem
        simp [hi, hne]
    · have hcs : k ∈ cs.map Prod.fst := by
        rcases List.mem_cons.mp hk with h | h
        · exact absurd h.symm hc
        · exact h
      rcases ih hnd2 hcs with ⟨cs2, h1, h2, h3⟩
      refine ⟨c :: cs2, by simp [colAppend, hc, h1], by simp [h2], ?_⟩
      intro i name vs hi
      cases i with
      | zero =>
        simp only [List.getElem?_cons_zero, Option.some_inj] at hi
        subst hi
        have hnk : name ≠ k := by simpa using hc
        simp [hnk]
      | succ j =>
        simp only [List.getElem?_cons_succ] at hi ⊢
        exact h3 j name vs hi

theorem append_dict_go_spec :
    ∀ (items : List (String × Int)) (cols : List (String × List Int)),
      (cols.map Prod.fst).Nodup →
      (∀ kv ∈ items, kv.1 ∈ cols.map Prod.fst) →
      (append_dict_go cols items).2 = none ∧
      (append_dict_go cols items).1.map Prod.fst = cols.map Prod.fst ∧
      ∀ (i : Nat) (name : String) (vs : List Int), cols[i]? = some (name, vs) →
        (append_dict_go cols items).1[i]? = some (name, vs ++ appendedVals name items) := by
  intro items
  induction items with
  | nil =>
    intro cols _ _
    refine ⟨rfl, rfl, ?_⟩
    intro i name vs hi
    simp [append_dict_go, appendedVals, hi]
  | cons kv rest ih =>
    intro cols hnd hkeys
    have hk : kv.1 ∈ cols.map Prod.fst := hkeys kv (List.mem_cons_self kv rest)
    rcases colAppend_pos kv.1 kv.2 cols hnd hk with ⟨cols2, h1, h2, h3⟩
    have hgo : append_dict_go cols (kv :: rest) = append_dict_go cols2 rest := by
      simp [append_dict_go, h1]
    have hnd2 : (cols2.map Prod.fst).Nodup := by rw [h2]; exact hnd
    have hkeys2 : ∀ kv2 ∈ rest, kv2.1 ∈ cols2.map Prod.fst := by
      intro kv2 hm
      rw [h2]
      exact hkeys kv2 (List.mem_cons_of_mem kv hm)
    rcases ih cols2 hnd2 hkeys2 with ⟨ih1, ih2, ih3⟩
    refine ⟨by rw [hgo]; exact ih1, by rw [hgo, ih2, h2], ?_⟩
    intro i name vs hi
    rw [hgo]
    have hstep := h3 i name vs hi
    have hfin := ih3 i name (vs ++ (if name = kv.1 then [kv.2] else [])) hstep
    rw [hfin]
    by_cases hnk : name = kv.1
    · simp [appendedVals, hnk, List.filter]
    · have : kv.1 ≠ name := fun he => hnk he.symm
      simp [appendedVals, hnk, List.filter, this]

theorem append_dict_go_err :
    ∀ (items : List (String × Int)) (cols : List (String × List Int)),
      (∃ kv ∈ items, kv.1 ∉ cols.map Prod.fst) →
      ∃ k2, (append_dict_go cols items).2 = some (PyErr.keyError k2) ∧
        k2 ∉ cols.map Prod.fst := by
  intro items
  induction items with
  | nil =>
    intro cols h
    simp at h
  | cons kv rest ih =>
    intro cols h
    by_cases hk : kv.1 ∈ cols.map Prod.fst
    · rcases colAppend_names kv.1 kv.2 cols hk with ⟨cols2, h1, h2⟩
      have hgo : append_dict_go cols (kv :: rest) = append_dict_go cols2 rest := by
        simp [append_dict_go, h1]
      have hrest : ∃ kv2 ∈ rest, kv2.1 ∉ cols2.map Prod.fst := by
        rcases h with ⟨kv0, hm, hnotin⟩
        rcases List.mem_cons.mp hm with rfl | hm2
        · exact absurd hk hnotin
        · exact ⟨kv0, hm2, by rw [h2]; exact hnotin⟩
      rcases ih cols2 hrest with ⟨k2, hk2, hnotin2⟩
      exact ⟨k2, by rw [hgo]; exact hk2, by rw [← h2]; exact hnotin2⟩
    · refine ⟨kv.1, ?_, hk⟩
      simp [append_dict_go, colAppend_none kv.1 kv.2 cols hk]

theorem keys_cover {names keys : List String} (hn : names.Nodup) (hk : keys.Nodup)
    (hsub : ∀ x ∈ keys, x ∈ names) (hlen : keys.length = names.length) :
    ∀ n ∈ names, n ∈ keys := by
  have hfs : keys.toFinset = names.toFinset := by
    apply Finset.eq_of_subset_of_card_le
    · intro x hx
      rw [List.mem_toFinset] at hx ⊢
      exact hsub x hx
    · rw [List.toFinset_card_of_nodup hn, List.toFinset_card_of_nodup hk, hlen]
  intro n hnm
  rw [← List.mem_toFinset, ← hfs, List.mem_toFinset] at hnm
  exact hnm

theorem appendedVals_nil_of_not_mem (name : String) :
    ∀ items : List (String × Int), name ∉ items.map Prod.fst →
      appendedVals name items = [] := by
  intro items
  induction items with
  | nil => intro _; rfl
  | cons kv rest ih =>
    intro h
    have hne : kv.1 ≠ name := by
      intro he
      exact h (by rw [← he]; exact List.mem_map_of_mem Prod.fst (List.mem_cons_self kv rest))
    have hrest : name ∉ rest.map Prod.fst := fun hm => h (List.mem_cons_of_mem _ hm)
    have hr := ih hrest
    unfold appendedVals at hr ⊢
    rw [List.filter_cons, if_neg (by simpa using hne)]
    exact hr

theorem appendedVals_single (name : String) (v : Int) :
    ∀ items : List (String × Int), (items.map Prod.fst).Nodup →
      (name, v) ∈ items → appendedVals name items = [v] := by
  intro items
  induction items with
  | nil => intro _ h; simp at h
  | cons kv rest ih =>
    intro hnd hm
    have hnd2 : (rest.map Prod.fst).Nodup := (List.nodup_cons.mp (by simpa using hnd)).2
    have hhead : kv.1 ∉ rest.map Prod.fst := (List.nodup_cons.mp (by simpa using hnd)).1
    rcases List.mem_cons.mp hm with rfl | hm2
    · have hrest : appendedVals name rest = [] := by
        apply appendedVals_nil_of_not_mem
        simpa using hhead
      simp [appendedVals, List.filter] at hrest ⊢
      exact hrest
    · have hne : kv.1 ≠ name := by
        intro he
        exact hhead (by rw [he]; exact List.mem_map_of_mem Prod.fst hm2)
      have := ih hnd2 hm2
      simp [appendedVals, List.filter, hne] at this ⊢
      exact this

/-- C9 (amended): append_row raises ValueError, leaving the builder
unchanged, exactly when the row length differs from the number of
columns, and otherwise appends exactly one value per column; append_dict
raises ValueError with the state unchanged when the dict size differs; it
appends exactly one value per column when every key is a column name; but
when it has the right number of keys including one that names no column,
it raises KeyError after the earlier keys' appends have happened. -/
theorem C9_append (b : DataFrameBuilder) (row : List Int) (drow : List (String × Int)) :
    (row.length ≠ b.columns.length → append_row b row = (b, some PyErr.valueError))
  ∧ (row.length = b.columns.length →
      (append_row b row).2 = none ∧
      (append_row b row).1.columns.length = b.columns.length ∧
      (∀ (i : Nat) (name : String) (vs : List Int) (r : Int),
        b.columns[i]? = some (name, vs) → row[i]? = some r →
        (append_row b row).1.columns[i]? = some (name, vs ++ [r])))
  ∧ (drow.length ≠ b.columns.length → append_dict b drow = (b, some PyErr.valueError))
  ∧ (drow.length = b.columns.length → (colNames b).Nodup →
      (drow.map Prod.fst).Nodup → (∀ kv ∈ drow, kv.1 ∈ colNames b) →
      (append_dict b drow).2 = none ∧
      (append_dict b drow).1.columns.length = b.columns.length ∧
      (∀ (i : Nat) (name : String) (vs : List Int),
        b.columns[i]? = some (name, vs) →
        ∃ v, (name, v) ∈ drow ∧
          (append_dict b drow).1.columns[i]? = some (name, vs ++ [v])))
  ∧ (drow.length = b.columns.length → (∃ kv ∈ drow, kv.1 ∉ colNames b) →
      ∃ k, (append_dict b drow).2 = some (PyErr.keyError k) ∧ k ∉ colNames b) := by
  refine ⟨?_, ?_, ?_, ?_, ?_⟩
  · intro hne
    simp [append_row, hne]
  · intro hlen
    have hcond : ¬ row.length ≠ b.columns.length := fun hc => hc hlen
    refine ⟨by simp [append_row, hcond], ?_, ?_⟩
    · simp [append_row, hcond, List.length_zip, hlen]
    · intro i name vs r hcol hrow
      have hres : (append_row b row).1.columns =
          (b.columns.zip row).map (fun p => (p.1.1, p.1.2 ++ [p.2])) := by
        simp [append_row, hcond]
      rw [hres]
      simp [List.getElem?_map, List.zip, List.getElem?_zipWith, hcol, hrow]
  · intro hne
    simp [append_dict, hne]
  · intro hlen hnodup hknodup hkeys
    have hcond : ¬ drow.length ≠ b.columns.length := fun hc => hc hlen
    have hkeys2 : ∀ kv ∈ drow, kv.1 ∈ b.columns.map Prod.fst := hkeys
    rcases append_dict_go_spec drow b.columns hnodup hkeys2 with ⟨h1, h2, h3⟩
    refine ⟨by simp [append_dict, hcond, h1], ?_, ?_⟩
    · have := congrArg List.length h2
      simpa [append_dict, hcond] using this
    · intro i name vs hcol
      have hmemname : name ∈ b.columns.map Prod.fst :=
        List.mem_map_of_mem Prod.fst (List.getElem?_mem hcol)
      have hkeylen : (drow.map Prod.fst).length = (b.columns.map Prod.fst).length := by
        simp [hlen]
      have hcover := keys_cover hnodup hknodup
        (fun x hx => by
          rcases List.mem_map.mp hx with ⟨kv, hkv, rfl⟩
          exact hkeys kv hkv) hkeylen name hmemname
      rcases List.mem_map.mp hcover with ⟨kv, hkv, hfst⟩
      refine ⟨kv.2, by rw [← hfst]; simpa using hkv, ?_⟩
      have hsingle : appendedVals name drow = [kv.2] := by
        apply appendedVals_single name kv.2 drow hknodup
        rw [← hfst]
        exact hkv
      have := h3 i name vs hcol
      rw [hsingle] at this
      simpa [append_dict, hcond] using this
  · intro hlen hmissing
    have hcond : ¬ drow.length ≠ b.columns.length := fun hc => hc hlen
    rcases append_dict_go_err drow b.columns hmissing with ⟨k2, hk2, hnotin⟩
    exact ⟨k2, by simpa [append_dict, hcond] using hk2, hnotin⟩

/-- C9 counterexample to the claim as stated: with columns a and b, the
dict has the right size but binds the non-column key c, so append_dict
raises KeyError after appending 1 to column a — the builder is changed
and the columns now have different lengths. -/
theorem C9_append_counterexample :
    append_dict ⟨[(("a"), []), (("b"), [])]⟩ [(("a"), 1), (("c"), 2)] =
      (⟨[(("a"), [1]), (("b"), [])]⟩, some (PyErr.keyError ("c")))
  ∧ (⟨[(("a"), [1]), (("b"), [])]⟩ : DataFrameBuilder) ≠ ⟨[(("a"), []), (("b"), [])]⟩ := by
  constructor
  · rfl
  · decide

/-- Witness for C9 applying every hypothesis-bearing branch at concrete
builders: wrong-length row and dict, valid row, valid dict (keys in
swapped order), and a dict with a non-column key. -/
theorem C9_append_witness :
    append_row ⟨[(("a"), []), (("b"), [])]⟩ [3] =
      (⟨[(("a"), []), (("b"), [])]⟩, some PyErr.valueError)
  ∧ (append_row ⟨[(("a"), []), (("b"), [])]⟩ [3, 4]).2 = none
  ∧ append_dict ⟨[(("a"), []), (("b"), [])]⟩ [(("a"), 3)] =
      (⟨[(("a"), []), (("b"), [])]⟩, some PyErr.valueError)
  ∧ (append_dict ⟨[(("a"), []), (("b"), [])]⟩ [(("b"), 5), (("a"), 7)]).2 = none
  ∧ (∃ k, (append_dict ⟨[(("a"), []), (("b"), [])]⟩ [(("a"), 1), (("c"), 2)]).2 =
      some (PyErr.keyError k) ∧ k ∉ colNames ⟨[(("a"), []), (("b"), [])]⟩) := by
  refine ⟨?_, ?_, ?_, ?_, ?_⟩
  · exact (C9_append ⟨[(("a"), []), (("b"), [])]⟩ [3] []).1 (by decide)
  · exact ((C9_append ⟨[(("a"), []), (("b"), [])]⟩ [3, 4] []).2.1 (by decide)).1
  · exact (C9_append ⟨[(("a"), []), (("b"), [])]⟩ [] [(("a"), 3)]).2.2.1 (by decide)
  · exact ((C9_append ⟨[(("a"), []), (("b"), [])]⟩ [] [(("b"), 5), (("a"), 7)]).2.2.2.1
      rfl (by decide) (by decide) (by decide)).1
  · exact (C9_append ⟨[(("a"), []), (("b"), [])]⟩ [] [(("a"), 1), (("c"), 2)]).2.2.2.2
      rfl ⟨(("c"), 2), by decide, by decide⟩

theorem mem_whereIdxFrom (i : Nat) :
    ∀ (mask : List Bool) (k : Nat),
      i ∈ whereIdxFrom mask k ↔ k ≤ i ∧ mask[i - k]? = some true := by
  intro mask
  induction mask with
  | nil =>
    intro k
    simp [whereIdxFrom]
  | cons b bs ih =>
    intro k
    rcases b with _ | _
    · rw [show whereIdxFrom (false :: bs) k = whereIdxFrom bs (k + 1) from rfl, ih (k + 1)]
      constructor
      · rintro ⟨h1, h2⟩
        refine ⟨by omega, ?_⟩
        rw [show i - k = (i - (k + 1)) + 1 by omega, List.getElem?_cons_succ]
        exact h2
      · rintro ⟨h1, h2⟩
        by_cases hik : i = k
        · subst hik
          simp at h2
        · refine ⟨by omega, ?_⟩
          rw [show i - k = (i - (k + 1)) + 1 by omega, List.getElem?_cons_succ] at h2
          exact h2
    · rw [show whereIdxFrom (true :: bs) k = k :: whereIdxFrom bs (k + 1) from rfl,
        List.mem_cons, ih (k + 1)]
      constructor
      · rintro (rfl | ⟨h1, h2⟩)
        · simp
        · refine ⟨by omega, ?_⟩
          rw [show i - k = (i - (k + 1)) + 1 by omega, List.getElem?_cons_succ]
          exact h2
      · rintro ⟨h1, h2⟩
        by_cases hik : i = k
        · exact Or.inl hik
        · refine Or.inr ⟨by omega, ?_⟩
          rw [show i - k = (i - (k + 1)) + 1 by omega, List.getElem?_cons_succ] at h2
          exact h2

theorem mem_whereIdx (i : Nat) (mask : List Bool) :
    i ∈ whereIdx mask ↔ mask[i]? = some true := by
  rw [whereIdx, mem_whereIdxFrom]
  simp

theorem to_fix_mask_getElem (seg : Loc → Int) (id : Int) (snap_zero : Bool) (locs : List Loc)
    (i : Nat) (l : Loc) (hl : locs[i]? = some l) :
    (to_fix_mask seg id snap_zero locs)[i]? =
      some (decide (seg l ≠ id) && (snap_zero || decide (seg l ≠ 0))) := by
  rcases snap_zero with _ | _
  · simp [to_fix_mask, List.getElem?_zipWith, List.getElem?_map, hl]
  · simp [to_fix_mask, List.getElem?_map, hl]

theorem applyFixes_length : ∀ (fixes : List (Nat × Loc)) (locs : List Loc),
    (applyFixes locs fixes).length = locs.length := by
  intro fixes
  induction fixes with
  | nil => intro locs; rfl
  | cons p ps ih =>
    intro locs
    by_cases hz : max3 p.2 = 0
    · simp only [applyFixes, List.foldl_cons, hz, if_true] at ih ⊢
      exact ih locs
    · simp only [applyFixes, List.foldl_cons, hz, if_false] at ih ⊢
      rw [ih (locs.set p.1 p.2), List.length_set]

theorem applyFixes_getElem_skip : ∀ (fixes : List (Nat × Loc)) (locs : List Loc) (i : Nat),
    (∀ p ∈ fixes, p.1 ≠ i ∨ max3 p.2 = 0) →
    (applyFixes locs fixes)[i]? = locs[i]? := by
  intro fixes
  induction fixes with
  | nil => intro locs i _; rfl
  | cons p ps ih =>
    intro locs i h
    by_cases hz : max3 p.2 = 0
    · simp only [applyFixes, List.foldl_cons, hz, if_true] at ih ⊢
      exact ih locs i (fun q hq => h q (List.mem_cons_of_mem p hq))
    · have hne : p.1 ≠ i := by
        rcases h p (List.mem_cons_self p ps) with hp | hp
        · exact hp
        · exact absurd hp hz
      simp only [applyFixes, List.foldl_cons, hz, if_false] at ih ⊢
      rw [ih (locs.set p.1 p.2) i (fun q hq => h q (List.mem_cons_of_mem p hq)),
        List.getElem?_set]
      rw [if_neg hne]

theorem snd_eq_of_mem_zip_map {β : Type u} {γ : Type v} (f : β → γ) :
    ∀ (l : List β) (p : β × γ), p ∈ l.zip (l.map f) → p.2 = f p.1 := by
  intro l
  induction l with
  | nil => intro p hp; simp at hp
  | cons x xs ih =>
    intro p hp
    rcases List.mem_cons.mp hp with rfl | hp2
    · rfl
    · exact ih p hp2

theorem mem_zip_map_of_mem {β : Type u} {γ : Type v} (f : β → γ) :
    ∀ (l : List β) (a : β), a ∈ l → (a, f a) ∈ l.zip (l.map f) := by
  intro l
  induction l with
  | nil => intro a ha; simp at ha
  | cons x xs ih =>
    intro a ha
    rcases List.mem_cons.mp ha with rfl | ha2
    · exact List.mem_cons_self _ _
    · exact List.mem_cons_of_mem _ (ih a ha2)

/-- C4: snap_to_id (with nanometer coordinates) returns an array of the
same length as the input; a location whose segmentation ID already equals
the target is unchanged; with snap_zero=False a location mapping to
segment 0 is unchanged; and a to-fix location whose cutout search returns
[0, 0, 0] is unchanged. The caller's array is only read: the result is a
fresh list built from the copy the code makes. -/
theorem C4_snap_to_id (seg : Loc → Int) (cutout : Loc → Loc) (id : Int) (snap_zero : Bool)
    (locs : List Loc) :
    (snap_to_id seg cutout id snap_zero locs).length = locs.length
  ∧ (∀ (i : Nat) (l : Loc), locs[i]? = some l → seg l = id →
      (snap_to_id seg cutout id snap_zero locs)[i]? = some l)
  ∧ (snap_zero = false → ∀ (i : Nat) (l : Loc), locs[i]? = some l → seg l = 0 →
      (snap_to_id seg cutout id snap_zero locs)[i]? = some l)
  ∧ (∀ (i : Nat) (l : Loc), locs[i]? = some l →
      cutout l = ((0 : Int), (0 : Int), (0 : Int)) →
      (snap_to_id seg cutout id snap_zero locs)[i]? = some l) := by
  have hfix : ∀ p : Nat × Loc,
      p ∈ (whereIdx (to_fix_mask seg id snap_zero locs)).zip
        ((whereIdx (to_fix_mask seg id snap_zero locs)).map
          (fun i => cutout (locs.getD i ((0 : Int), (0 : Int), (0 : Int))))) →
      (to_fix_mask seg id snap_zero locs)[p.1]? = some true ∧
      p.2 = cutout (locs.getD p.1 ((0 : Int), (0 : Int), (0 : Int))) := by
    intro p hp
    have h1 := (List.of_mem_zip hp).1
    rw [mem_whereIdx] at h1
    exact ⟨h1, snd_eq_of_mem_zip_map _ _ p hp⟩
  refine ⟨applyFixes_length _ _, ?_, ?_, ?_⟩
  · intro i l hl hid
    unfold snap_to_id
    rw [applyFixes_getElem_skip _ _ i ?_, hl]
    intro p hp
    left
    intro hpi
    rcases hfix p hp with ⟨hmask, _⟩
    rw [hpi, to_fix_mask_getElem seg id snap_zero locs i l hl] at hmask
    simp [hid] at hmask
  · intro hsz i l hl h0
    subst hsz
    unfold snap_to_id
    rw [applyFixes_getElem_skip _ _ i ?_, hl]
    intro p hp
    left
    intro hpi
    rcases hfix p hp with ⟨hmask, _⟩
    rw [hpi, to_fix_mask_getElem seg id false locs i l hl] at hmask
    simp [h0] at hmask
  · intro i l hl hc
    unfold snap_to_id
    rw [applyFixes_getElem_skip _ _ i ?_, hl]
    intro p hp
    rcases hfix p hp with ⟨_, hval⟩
    by_cases hpi : p.1 = i
    · right
      rw [hval, hpi]
      have hgd : locs.getD i ((0 : Int), (0 : Int), (0 : Int)) = l := by
        rw [List.getD_eq_getElem?_getD, hl]
        rfl
      rw [hgd, hc]
      rfl
    · exact Or.inl hpi

/-- Witness for C4 at concrete inputs: a location already carrying the
target ID stays put; with snap_zero=False a location on segment 0 stays
put; a wrong-ID location whose cutout finds nothing stays put. -/
theorem C4_snap_to_id_witness :
    (snap_to_id (fun _ => 5) (fun _ => ((0 : Int), (0 : Int), (0 : Int))) 5 false
      [((1 : Int), (2 : Int), (3 : Int))])[0]? = some ((1 : Int), (2 : Int), (3 : Int))
  ∧ (snap_to_id (fun _ => 0) (fun _ => ((0 : Int), (0 : Int), (0 : Int))) 7 false
      [((1 : Int), (2 : Int), (3 : Int))])[0]? = some ((1 : Int), (2 : Int), (3 : Int))
  ∧ (snap_to_id (fun _ => 9) (fun _ => ((0 : Int), (0 : Int), (0 : Int))) 7 false
      [((1 : Int), (2 : Int), (3 : Int))])[0]? = some ((1 : Int), (2 : Int), (3 : Int)) := by
  refine ⟨?_, ?_, ?_⟩
  · exact (C4_snap_to_id (fun _ => 5) (fun _ => ((0 : Int), (0 : Int), (0 : Int))) 5 false
      [((1 : Int), (2 : Int), (3 : Int))]).2.1 0 ((1 : Int), (2 : Int), (3 : Int)) rfl rfl
  · exact (C4_snap_to_id (fun _ => 0) (fun _ => ((0 : Int), (0 : Int), (0 : Int))) 7 false
      [((1 : Int), (2 : Int), (3 : Int))]).2.2.1 rfl 0 ((1 : Int), (2 : Int), (3 : Int)) rfl rfl
  · exact (C4_snap_to_id (fun _ => 9) (fun _ => ((0 : Int), (0 : Int), (0 : Int))) 7 false
      [((1 : Int), (2 : Int), (3 : Int))]).2.2.2 0 ((1 : Int), (2 : Int), (3 : Int)) rfl rfl

theorem lookupLoc_eq (p : Loc) (x : Int) :
    ∀ pairs : List (Loc × Int), (∀ kv ∈ pairs, kv.1 = p → kv.2 = x) →
      (p, x) ∈ pairs → lookupLoc pairs p = some x := by
  intro pairs
  induction pairs with
  | nil => intro _ hm; simp at hm
  | cons kv rest ih =>
    intro hall hm
    by_cases hk : kv.1 = p
    · have : kv.2 = x := hall kv (List.mem_cons_self kv rest) hk
      simp [lookupLoc, hk, this]
    · have hm2 : (p, x) ∈ rest := by
        rcases List.mem_cons.mp hm with rfl | h
        · exact absurd rfl hk
        · exact h
      simp only [lookupLoc, hk, if_false]
      exact ih (fun q hq => hall q (List.mem_cons_of_mem kv hq)) hm2

/-- C5: the intended PointLoader pipeline behaves as the claim describes —
load_all with return_sorted=True returns exactly the cumulatively added
points, in insertion order, with a parallel data array holding the volume
value at each point (one segmentation ID per location) — but
locs_to_supervoxels itself can never deliver this: its body invokes the
non-existent method `add` on the loader and raises AttributeError on every
input. -/
theorem C5_locs_to_supervoxels (res csz : Loc) (vlookup : Loc → Int) (pts : List Loc) :
    (∀ locs : List Loc, locs_to_supervoxels locs =
      Except.error ("AttributeError: PointLoader object has no attribute add"))
  ∧ load_all_sorted res csz vlookup pts = (pts, pts.map (fun p => some (vlookup p))) := by
  refine ⟨fun _ => rfl, ?_⟩
  unfold load_all_sorted
  refine Prod.ext rfl ?_
  simp only
  apply List.map_congr_left
  intro p hp
  set keys := (pts.map (chunkKey res csz)).dedup with hkeys
  set results := keys.map (fun k =>
    let g := (pts.filter (fun q => decide (chunkKey res csz q = k))).dedup
    (g, g.map vlookup)) with hresults
  have hpairs_val : ∀ kv ∈ results.flatMap (fun r => r.1.zip r.2), kv.2 = vlookup kv.1 := by
    intro kv hkv
    rcases List.mem_flatMap.mp hkv with ⟨r, hr, hmem⟩
    rcases List.mem_map.mp hr with ⟨k, _, rfl⟩
    exact snd_eq_of_mem_zip_map vlookup _ kv hmem
  have hmem_pairs : (p, vlookup p) ∈ results.flatMap (fun r => r.1.zip r.2) := by
    have hkmem : chunkKey res csz p ∈ keys := by
      rw [hkeys, List.mem_dedup]
      exact List.mem_map_of_mem (chunkKey res csz) hp
    have hgmem : p ∈ (pts.filter (fun q => decide (chunkKey res csz q = chunkKey res csz p))).dedup := by
      rw [List.mem_dedup, List.mem_filter]
      exact ⟨hp, by simp⟩
    apply List.mem_flatMap.mpr
    refine ⟨((pts.filter (fun q => decide (chunkKey res csz q = chunkKey res csz p))).dedup,
      ((pts.filter (fun q => decide (chunkKey res csz q = chunkKey res csz p))).dedup).map vlookup),
      ?_, ?_⟩
    · rw [hresults]
      exact List.mem_map_of_mem _ hkmem
    · exact mem_zip_map_of_mem vlookup _ p hgmem
  exact lookupLoc_eq p (vlookup p) _ (fun kv hkv hk => by rw [hpairs_val kv hkv, hk]) hmem_pairs

end Connectomes
